import Mathlib

/-!
Verification of the glyph-outline-to-SVG geometry pipeline of
`export_svg_glyphs.py`: contour segmentation, midpoint splitting,
manual contour reversal, and path emission with coordinate flip and
close-path detection.

Points are modelled as pairs of rationals (the Python code works on
floating-point pairs but performs only exact-representable operations
on the inputs considered here).  Python list indexing that can raise
`IndexError` is modelled with `Option`: a `none` result of
`reverse_contour_manually` corresponds to an uncaught exception.
-/

namespace ExportSvgGlyphs

/-- A coordinate pair in font design units. -/
abbrev Point := ℚ × ℚ

/-- The pen commands recorded by the `RecordingPen`.  `qCurveTo` carries a
list of operands in which an absent (trailing) operand is `none`, mirroring
Python's `None`-as-sentinel convention.  `other` models any operator the
pipeline does not explicitly recognise, carried through as a name plus
operand tuple. -/
inductive Cmd where
  | moveTo (p : Point)
  | lineTo (p : Point)
  | curveTo (c1 c2 e : Point)
  | qCurveTo (ops : List (Option Point))
  | closePath
  | endPath
  | other (name : String) (ops : List (Option Point))
  deriving DecidableEq

/-- `operator == "moveTo"`. -/
def Cmd.isMoveTo : Cmd → Bool
  | .moveTo _ => true
  | _ => false

/-- `operator in ("closePath", "endPath")`. -/
def Cmd.isCloseOrEnd : Cmd → Bool
  | .closePath => true
  | .endPath => true
  | _ => false

/-- A drawing command: neither `moveTo` nor `closePath`/`endPath`. -/
def Cmd.isDrawing (c : Cmd) : Bool := !c.isMoveTo && !c.isCloseOrEnd

/-- `_split_contour_at_midpoint`: keep the leading `moveTo` plus the first
`floor(n/2)` drawing commands, dropping any close/end command; contours of
fewer than 3 commands, or with no drawing commands, are returned unchanged. -/
def split_contour_at_midpoint (contour : List Cmd) : List Cmd :=
  if contour.length < 3 then contour
  else
    let drawing_ops := contour.filter Cmd.isDrawing
    let move_to := (contour.filter Cmd.isMoveTo).getLast?
    if drawing_ops.isEmpty then contour
    else
      let midpoint := drawing_ops.length / 2
      (match move_to with
       | some m => [m]
       | none => []) ++ drawing_ops.take midpoint

/-- Python negative indexing `l[-k]`: defined for `1 ≤ k ≤ l.length`,
`IndexError` (`none`) otherwise. -/
def pyNegGet (l : List α) (k : Nat) : Option α :=
  if 1 ≤ k ∧ k ≤ l.length then l[l.length - k]? else none

/-- The point a drawing command contributes to the reverser's reconstructed
point sequence: `operands[0]` for `lineTo`, `operands[-1]` for `curveTo`,
the last non-`None` operand for `qCurveTo`, nothing for anything else. -/
def cmdPoint : Cmd → Option Point
  | .lineTo p => some p
  | .curveTo _ _ e => some e
  | .qCurveTo ops => (ops.filterMap id).getLast?
  | _ => none

/-- The command(s) the reverser's main loop appends for one original
command, given the preceding on-curve point `prev`; commands that are not
`lineTo`/`curveTo`/`qCurveTo` append nothing. -/
def revEmit : Cmd → Point → List Cmd
  | .lineTo _, prev => [Cmd.lineTo prev]
  | .curveTo c1 c2 _, prev => [Cmd.curveTo c2 c1 prev]
  | .qCurveTo ops, prev =>
      [Cmd.qCurveTo (((ops.filterMap id).reverse.map some) ++ [some prev])]
  | _, _ => []

/-- The reverser's `for i, (op, operands) in enumerate(reversed(operations))`
loop: at loop index `i` the preceding point is `points[-(i+2)]`, whose
lookup can raise `IndexError`. -/
def revLoop (pts : List Point) : Nat → List Cmd → Option (List Cmd)
  | _, [] => some []
  | i, c :: rest => do
      let prev ← pyNegGet pts (i + 2)
      let tail ← revLoop pts (i + 1) rest
      pure (revEmit c prev ++ tail)

/-- Strip one trailing `closePath`/`endPath`, as the reverser does. -/
def stripTrailingClose (ops : List Cmd) : List Cmd :=
  match ops.getLast? with
  | some c => if c.isCloseOrEnd then ops.dropLast else ops
  | none => ops

/-- `_reverse_contour_manually`: reverse the traversal order of a contour.
A `none` result models an uncaught `IndexError` in the Python source. -/
def reverse_contour_manually (contour : List Cmd) : Option (List Cmd) :=
  if contour.length < 2 then some contour
  else
    match contour with
    | Cmd.moveTo p0 :: rest =>
        let operations := stripTrailingClose rest
        if operations.isEmpty then some contour
        else
          let points := p0 :: operations.filterMap cmdPoint
          do
            let start ← pyNegGet points 1
            let body ← revLoop points 0 operations.reverse
            pure (Cmd.moveTo start :: body)
    | _ => some contour

/-- The contour-segmentation loop of `_glyph_to_svg_commands`: accumulate
into a buffer, flush on each `moveTo`, flush the final buffer at the end. -/
def segLoop : List Cmd → List Cmd → List (List Cmd)
  | buf, [] => if buf.isEmpty then [] else [buf]
  | buf, c :: rest =>
      match c with
      | Cmd.moveTo p =>
          if buf.isEmpty then segLoop [Cmd.moveTo p] rest
          else buf :: segLoop [Cmd.moveTo p] rest
      | _ => segLoop (buf ++ [c]) rest

/-- Split a command stream into contours on `moveTo` boundaries. -/
def segmentContours (cs : List Cmd) : List (List Cmd) := segLoop [] cs

/-- `_points_close` with the default tolerance `0.5` (the only tolerance the
source ever uses): componentwise distance at most one half, pre-transform. -/
def points_close (p1 p2 : Point) : Bool :=
  decide (|p1.1 - p2.1| ≤ (1 : ℚ) / 2) && decide (|p1.2 - p2.2| ≤ (1 : ℚ) / 2)

/-- `_get_last_point`: the terminal point of a command's operand tuple as the
emitter tracks it — `operands[-1]`, except the last non-`None` operand for
`qCurveTo`, and `None` for an empty operand tuple. -/
def get_last_point : Cmd → Option Point
  | .moveTo p => some p
  | .lineTo p => some p
  | .curveTo _ _ e => some e
  | .qCurveTo ops => (ops.filterMap id).getLast?
  | .closePath => none
  | .endPath => none
  | .other _ ops => (ops.getLast?).join

/-- `last_point = maybe_point if maybe_point is not None`. -/
def updateLast (old : Option Point) : Option Point → Option Point
  | some q => some q
  | none => old

/-- An affine transform in fontTools order `(xx, xy, yx, yy, dx, dy)`. -/
structure Affine where
  xx : ℚ
  xy : ℚ
  yx : ℚ
  yy : ℚ
  dx : ℚ
  dy : ℚ
  deriving DecidableEq

/-- fontTools `Transform.transformPoint`. -/
def transformPoint (t : Affine) (p : Point) : Point :=
  (t.xx * p.1 + t.yx * p.2 + t.dx, t.xy * p.1 + t.yy * p.2 + t.dy)

/-- The matrix `(1, 0, 0, -1, 0, ascent)` passed to `TransformPen`. -/
def flipTransform (ascent : ℚ) : Affine := ⟨1, 0, 0, -1, 0, ascent⟩

/-- `TransformPen.qCurveTo`: transform all operands, keeping a trailing
`None` marker untouched. -/
def transformQOps (tf : Point → Point) (ops : List (Option Point)) :
    List (Option Point) :=
  if ops.getLast? = some none then (ops.dropLast.map (Option.map tf)) ++ [none]
  else ops.map (Option.map tf)

/-- The commands that reach the SVG serializer, with transformed points. -/
inductive OutCmd where
  | moveTo (p : Point)
  | lineTo (p : Point)
  | curveTo (c1 c2 e : Point)
  | qCurveTo (ops : List (Option Point))
  | closePath
  | other (name : String) (ops : List (Option Point))
  deriving DecidableEq

/-- The emitter's per-contour tracking state (`contour_start`, `last_point`,
`qcurve_closed`). -/
structure EmitState where
  contour_start : Option Point
  last_point : Option Point
  qcurve_closed : Bool
  deriving DecidableEq

/-- One iteration of the replay loop of `_glyph_to_svg_commands`: returns
the updated tracking state and the commands forwarded to the serializer. -/
def emitStep (ascent : ℚ) (s : EmitState) : Cmd → EmitState × List OutCmd
  | Cmd.moveTo p =>
      (⟨some p, some p, false⟩,
       [OutCmd.moveTo (transformPoint (flipTransform ascent) p)])
  | Cmd.lineTo p =>
      (⟨s.contour_start,
        updateLast s.last_point (get_last_point (Cmd.lineTo p)), false⟩,
       [OutCmd.lineTo (transformPoint (flipTransform ascent) p)])
  | Cmd.curveTo c1 c2 e =>
      (⟨s.contour_start,
        updateLast s.last_point (get_last_point (Cmd.curveTo c1 c2 e)), false⟩,
       [OutCmd.curveTo (transformPoint (flipTransform ascent) c1)
          (transformPoint (flipTransform ascent) c2)
          (transformPoint (flipTransform ascent) e)])
  | Cmd.qCurveTo ops =>
      (if ops.getLast? = some none ∧ s.contour_start.isSome then
        ⟨s.contour_start, s.contour_start, true⟩
       else
        ⟨s.contour_start,
         updateLast s.last_point (get_last_point (Cmd.qCurveTo ops)), false⟩,
       [OutCmd.qCurveTo (transformQOps (transformPoint (flipTransform ascent)) ops)])
  | Cmd.closePath =>
      (⟨none, none, false⟩,
       match s.contour_start, s.last_point with
       | some cs, some lp =>
           if points_close lp cs || s.qcurve_closed then [OutCmd.closePath] else []
       | _, _ => [])
  | Cmd.endPath => (⟨none, none, false⟩, [])
  | Cmd.other name ops =>
      (⟨s.contour_start,
        updateLast s.last_point (get_last_point (Cmd.other name ops)), false⟩,
       [OutCmd.other name (ops.map (Option.map (transformPoint (flipTransform ascent))))])

/-- The serializer output of replaying a command list from a given state. -/
def emitRun (ascent : ℚ) : EmitState → List Cmd → List OutCmd
  | _, [] => []
  | s, c :: rest =>
      (emitStep ascent s c).2 ++ emitRun ascent (emitStep ascent s c).1 rest

/-- The tracking state after replaying a command list. -/
def emitState (ascent : ℚ) : EmitState → List Cmd → EmitState
  | s, [] => s
  | s, c :: rest => emitState ascent (emitStep ascent s c).1 rest

/-- Process each segmented contour as the loop body of
`_glyph_to_svg_commands` does: split at the midpoint, then reverse. -/
def processContours : List (List Cmd) → Option (List (List Cmd))
  | [] => some []
  | c :: rest => do
      let r ← reverse_contour_manually (split_contour_at_midpoint c)
      let rs ← processContours rest
      pure (r :: rs)

/-- `_glyph_to_svg_commands`: segment into contours, split each at its
midpoint, reverse it, flatten, and replay through the transform and the
close-path detection.  A `none` result models an uncaught exception. -/
def glyph_to_svg_commands (cs : List Cmd) (ascent : ℚ) : Option (List OutCmd) := do
  let processed ← processContours (segmentContours cs)
  pure (emitRun ascent ⟨none, none, false⟩ processed.flatten)

/-- The font tables relevant to `get_vertical_metrics`: `unitsPerEm` from
`head`, and the optional `(ascent, descent)` pair of `hhea` and
`(sTypoAscender, sTypoDescender)` pair of `OS/2`. -/
structure FontTables where
  unitsPerEm : Int
  hhea : Option (Int × Int)
  os2 : Option (Int × Int)
  deriving DecidableEq

/-- Python's `a or b` for an optional integer `a`: `b` when `a` is `None`
or `0` (falsy), `a` otherwise. -/
def pyOrInt : Option Int → Int → Int
  | none, b => b
  | some a, b => if a = 0 then b else a

/-- `get_vertical_metrics`: `hhea` first, then `OS/2` for missing values,
then the fallback `ascent = units_per_em`, `descent = -units_per_em // 4`
(Python floor division). -/
def get_vertical_metrics (f : FontTables) : Int × Int × Int :=
  let ascent0 : Option Int := f.hhea.map Prod.fst
  let descent0 : Option Int := f.hhea.map Prod.snd
  let step2 : Option Int × Option Int :=
    match f.os2 with
    | some os2v =>
        if ascent0 = none ∨ descent0 = none then
          (some (pyOrInt ascent0 os2v.1), some (pyOrInt descent0 os2v.2))
        else (ascent0, descent0)
    | none => (ascent0, descent0)
  match step2 with
  | (some a, some d) => (f.unitsPerEm, a, d)
  | _ => (f.unitsPerEm, f.unitsPerEm, Int.fdiv (-f.unitsPerEm) 4)

/-- Commands of the four kinds the reverser can output. -/
def isRecognizedKind : Cmd → Bool
  | .moveTo _ => true
  | .lineTo _ => true
  | .curveTo _ _ _ => true
  | .qCurveTo _ => true
  | _ => false

/-! ### Helper lemmas -/

theorem segLoop_flatten (cs : List Cmd) : ∀ buf, (segLoop buf cs).flatten = buf ++ cs := by
  induction cs with
  | nil =>
      intro buf
      by_cases h : buf.isEmpty
      · simp [segLoop, h, List.isEmpty_iff.mp h]
      · simp [segLoop, h]
  | cons c rest ih =>
      intro buf
      cases c with
      | moveTo p =>
          by_cases h : buf.isEmpty
          · simp [segLoop, h, ih, List.isEmpty_iff.mp h]
          · simp [segLoop, h, ih]
      | lineTo p => simp [segLoop, ih]
      | curveTo a b e => simp [segLoop, ih]
      | qCurveTo ops => simp [segLoop, ih]
      | closePath => simp [segLoop, ih]
      | endPath => simp [segLoop, ih]
      | other n ops => simp [segLoop, ih]

theorem isMoveTo_false_of_isDrawing {c : Cmd} (h : c.isDrawing = true) :
    c.isMoveTo = false := by
  cases c <;> simp_all [Cmd.isDrawing, Cmd.isMoveTo]

theorem isCloseOrEnd_false_of_isDrawing {c : Cmd} (h : c.isDrawing = true) :
    c.isCloseOrEnd = false := by
  cases c <;> simp_all [Cmd.isDrawing, Cmd.isCloseOrEnd]

theorem stripTrailingClose_eq_self {ops : List Cmd}
    (h : ∀ c ∈ ops, c.isDrawing = true) : stripTrailingClose ops = ops := by
  unfold stripTrailingClose
  match hlast : ops.getLast? with
  | none => rfl
  | some c =>
      have hc : c ∈ ops := by
        rcases List.mem_getLast?_eq_getLast (Option.mem_def.mpr hlast) with ⟨h', he⟩
        exact he ▸ List.getLast_mem h'
      simp [isCloseOrEnd_false_of_isDrawing (h c hc)]

theorem length_filterMap_lt_of_mem_none {α β : Type} (f : α → Option β)
    {l : List α} {c : α} (hc : c ∈ l) (hf : f c = none) :
    (l.filterMap f).length < l.length := by
  induction l with
  | nil => cases hc
  | cons x xs ih =>
      rcases List.mem_cons.mp hc with h | h
      · subst h
        simp only [List.filterMap_cons, hf, List.length_cons]
        exact Nat.lt_succ_of_le (List.length_filterMap_le f xs)
      · cases hx : f x with
        | none =>
            simp only [List.filterMap_cons, hx, List.length_cons]
            exact Nat.lt_succ_of_lt (ih h)
        | some b =>
            simp only [List.filterMap_cons, hx, List.length_cons]
            exact Nat.succ_lt_succ (ih h)

theorem revLoop_none (pts : List Point) :
    ∀ (l : List Cmd) (i : Nat), l ≠ [] → pts.length < i + l.length + 1 →
      revLoop pts i l = none := by
  intro l
  induction l with
  | nil => intro i h; cases h rfl
  | cons c rest ih =>
      intro i _ hlen
      by_cases hk : i + 2 ≤ pts.length
      · have hrest : rest ≠ [] := by
          intro h
          subst h
          simp at hlen
          omega
        have : revLoop pts (i + 1) rest = none := by
          apply ih _ hrest
          simp at hlen ⊢
          omega
        simp [revLoop, this]
      · simp [revLoop, pyNegGet, hk]

theorem revLoop_kinds (pts : List Point) :
    ∀ (l : List Cmd) (i : Nat) (out : List Cmd), revLoop pts i l = some out →
      ∀ c ∈ out, isRecognizedKind c = true := by
  intro l
  induction l with
  | nil =>
      intro i out h
      simp [revLoop] at h
      subst h
      intro c hc
      cases hc
  | cons x rest ih =>
      intro i out h c hc
      simp only [revLoop, Option.bind_eq_bind, bind, Option.bind] at h
      cases hp : pyNegGet pts (i + 2) with
      | none => rw [hp] at h; cases h
      | some prev =>
          rw [hp] at h
          cases ht : revLoop pts (i + 1) rest with
          | none => rw [ht] at h; cases h
          | some tail =>
              rw [ht] at h
              simp only [pure, Option.some.injEq] at h
              subst h
              rcases List.mem_append.mp hc with hmem | hmem
              · cases x <;> simp [revEmit] at hmem <;>
                  simp [hmem, isRecognizedKind]
              · exact ih _ _ ht c hmem

/-- The three recognized drawing-command kinds of the emitter loop. -/
def isRecognizedDrawing : Cmd → Bool
  | .lineTo _ => true
  | .curveTo _ _ _ => true
  | .qCurveTo _ => true
  | _ => false

/-- A `qCurveTo` whose final operand is absent (`None`). -/
def qCurveTrailingAbsent : Cmd → Bool
  | .qCurveTo ops => decide (ops.getLast? = some none)
  | _ => false

theorem updateLast_isSome (old : Option Point) (v : Option Point)
    (h : old.isSome = true) : (updateLast old v).isSome = true := by
  cases v <;> simp [updateLast, h]

theorem emitStep_contour_start (a : ℚ) (s : EmitState) (c : Cmd)
    (h : isRecognizedDrawing c = true) :
    (emitStep a s c).1.contour_start = s.contour_start := by
  cases c with
  | lineTo p => rfl
  | curveTo c1 c2 e => rfl
  | qCurveTo ops =>
      show (if _ then _ else _ : EmitState).contour_start = _
      split <;> rfl
  | moveTo p => simp [isRecognizedDrawing] at h
  | closePath => simp [isRecognizedDrawing] at h
  | endPath => simp [isRecognizedDrawing] at h
  | other n ops => simp [isRecognizedDrawing] at h

theorem emitStep_last_point (a : ℚ) (s : EmitState) (c : Cmd)
    (h : isRecognizedDrawing c = true) (hs : s.last_point.isSome = true) :
    (emitStep a s c).1.last_point.isSome = true := by
  cases c with
  | lineTo p => simp [emitStep, get_last_point, updateLast]
  | curveTo c1 c2 e => simp [emitStep, get_last_point, updateLast]
  | qCurveTo ops =>
      show (if _ then _ else _ : EmitState).last_point.isSome = true
      split
      · next hcond => simpa using hcond.2
      · exact updateLast_isSome _ _ hs
  | moveTo p => simp [isRecognizedDrawing] at h
  | closePath => simp [isRecognizedDrawing] at h
  | endPath => simp [isRecognizedDrawing] at h
  | other n ops => simp [isRecognizedDrawing] at h

theorem emitStep_qcurve_closed (a : ℚ) (s : EmitState) (c : Cmd)
    (h : isRecognizedDrawing c = true) :
    (emitStep a s c).1.qcurve_closed =
      (qCurveTrailingAbsent c && s.contour_start.isSome) := by
  cases c with
  | lineTo p => simp [emitStep, qCurveTrailingAbsent]
  | curveTo c1 c2 e => simp [emitStep, qCurveTrailingAbsent]
  | qCurveTo ops =>
      show (if _ then _ else _ : EmitState).qcurve_closed = _
      split
      · next hcond => simp [qCurveTrailingAbsent, hcond.1, hcond.2]
      · next hcond =>
          by_cases h1 : ops.getLast? = some none <;>
            by_cases h2 : s.contour_start.isSome = true <;>
            simp_all [qCurveTrailingAbsent]
  | moveTo p => simp [isRecognizedDrawing] at h
  | closePath => simp [isRecognizedDrawing] at h
  | endPath => simp [isRecognizedDrawing] at h
  | other n ops => simp [isRecognizedDrawing] at h

theorem emitState_contour_start (a : ℚ) (mid : List Cmd)
    (h : ∀ c ∈ mid, isRecognizedDrawing c = true) (s : EmitState) :
    (emitState a s mid).contour_start = s.contour_start := by
  induction mid generalizing s with
  | nil => rfl
  | cons c rest ih =>
      rw [emitState, ih (fun x hx => h x (List.mem_cons_of_mem _ hx))]
      exact emitStep_contour_start a s c (h c (List.mem_cons_self _ _))

theorem emitState_last_point (a : ℚ) (mid : List Cmd)
    (h : ∀ c ∈ mid, isRecognizedDrawing c = true) (s : EmitState)
    (hs : s.last_point.isSome = true) :
    (emitState a s mid).last_point.isSome = true := by
  induction mid generalizing s with
  | nil => exact hs
  | cons c rest ih =>
      rw [emitState]
      exact ih (fun x hx => h x (List.mem_cons_of_mem _ hx)) _
        (emitStep_last_point a s c (h c (List.mem_cons_self _ _)) hs)

theorem emitState_qcurve_closed (a : ℚ) (mid : List Cmd) (last : Cmd) :
    ∀ (s : EmitState), (∀ c ∈ mid, isRecognizedDrawing c = true) →
      s.contour_start.isSome = true → mid.getLast? = some last →
      (emitState a s mid).qcurve_closed = qCurveTrailingAbsent last := by
  induction mid with
  | nil => intro s _ _ hlast; cases hlast
  | cons c rest ih =>
      intro s h hcs hlast
      rw [emitState]
      cases rest with
      | nil =>
          have hc : c = last := by simpa using hlast
          show (emitStep a s c).1.qcurve_closed = _
          rw [emitStep_qcurve_closed a s c (h c (List.mem_cons_self _ _))]
          simp [hcs, hc]
      | cons d ds =>
          have hlast' : (d :: ds).getLast? = some last := by
            rw [← hlast]
            exact (List.getLast?_cons_cons ..).symm
          apply ih _ (fun x hx => h x (List.mem_cons_of_mem _ hx)) _ hlast'
          rw [emitStep_contour_start a s c (h c (List.mem_cons_self _ _))]
          exact hcs

theorem emitRun_append (a : ℚ) (xs ys : List Cmd) :
    ∀ s : EmitState,
      emitRun a s (xs ++ ys) = emitRun a s xs ++ emitRun a (emitState a s xs) ys := by
  induction xs with
  | nil => intro s; rfl
  | cons c rest ih =>
      intro s
      simp [emitRun, emitState, ih, List.append_assoc]

theorem emitStep_no_close (a : ℚ) (s : EmitState) (c : Cmd)
    (h : isRecognizedDrawing c = true) :
    OutCmd.closePath ∉ (emitStep a s c).2 := by
  cases c with
  | lineTo p => simp [emitStep]
  | curveTo c1 c2 e => simp [emitStep]
  | qCurveTo ops => simp [emitStep]
  | moveTo p => simp [isRecognizedDrawing] at h
  | closePath => simp [isRecognizedDrawing] at h
  | endPath => simp [isRecognizedDrawing] at h
  | other n ops => simp [isRecognizedDrawing] at h

theorem emitRun_no_close (a : ℚ) (mid : List Cmd)
    (h : ∀ c ∈ mid, isRecognizedDrawing c = true) :
    ∀ s : EmitState, OutCmd.closePath ∉ emitRun a s mid := by
  induction mid with
  | nil => intro s; simp [emitRun]
  | cons c rest ih =>
      intro s
      simp only [emitRun, List.mem_append]
      push_neg
      exact ⟨emitStep_no_close a s c (h c (List.mem_cons_self _ _)),
             ih (fun x hx => h x (List.mem_cons_of_mem _ hx)) _⟩

/-- Drawing commands of kind `lineTo` or `curveTo`. -/
def isLineOrCurve : Cmd → Bool
  | .lineTo _ => true
  | .curveTo _ _ _ => true
  | _ => false

/-- The terminal on-curve point of a `lineTo`/`curveTo` command. -/
def endPt : Cmd → Point
  | .lineTo p => p
  | .curveTo _ _ e => e
  | _ => (0, 0)

/-- One reversed `lineTo`/`curveTo`: same kind, control points swapped for
the cubic, endpoint replaced by the preceding on-curve point `q`. -/
def flipCmd : Cmd → Point → Cmd
  | .lineTo _, q => .lineTo q
  | .curveTo c1 c2 _, q => .curveTo c2 c1 q
  | c, _ => c

/-- The last on-curve point of `moveTo p` followed by `ops`. -/
def lastPt : Point → List Cmd → Point
  | p, [] => p
  | _, c :: cs => lastPt (endPt c) cs

/-- Reference form of the reversed body produced by the reverser's loop. -/
def revBody : Point → List Cmd → List Cmd
  | _, [] => []
  | p0, c :: cs => revBody (endPt c) cs ++ [flipCmd c p0]

theorem cmdPoint_lc {c : Cmd} (h : isLineOrCurve c = true) :
    cmdPoint c = some (endPt c) := by
  cases c <;> simp_all [isLineOrCurve, cmdPoint, endPt]

theorem isDrawing_of_lc {c : Cmd} (h : isLineOrCurve c = true) :
    c.isDrawing = true := by
  cases c <;> simp_all [isLineOrCurve, Cmd.isDrawing, Cmd.isMoveTo, Cmd.isCloseOrEnd]

theorem revEmit_lc {c : Cmd} (q : Point) (h : isLineOrCurve c = true) :
    revEmit c q = [flipCmd c q] := by
  cases c <;> simp_all [isLineOrCurve, revEmit, flipCmd]

theorem endPt_flipCmd {c : Cmd} (q : Point) (h : isLineOrCurve c = true) :
    endPt (flipCmd c q) = q := by
  cases c <;> simp_all [isLineOrCurve, flipCmd, endPt]

theorem flipCmd_flipCmd {c : Cmd} (q : Point) (h : isLineOrCurve c = true) :
    flipCmd (flipCmd c q) (endPt c) = c := by
  cases c <;> simp_all [isLineOrCurve, flipCmd, endPt]

theorem lc_flipCmd {c : Cmd} (q : Point) (h : isLineOrCurve c = true) :
    isLineOrCurve (flipCmd c q) = true := by
  cases c <;> simp_all [isLineOrCurve, flipCmd]

theorem filterMap_cmdPoint_eq {ops : List Cmd}
    (h : ∀ c ∈ ops, isLineOrCurve c = true) :
    ops.filterMap cmdPoint = ops.map endPt := by
  induction ops with
  | nil => rfl
  | cons c cs ih =>
      rw [List.filterMap_cons, cmdPoint_lc (h c (List.mem_cons_self _ _)),
          List.map_cons, ih (fun x hx => h x (List.mem_cons_of_mem _ hx))]

theorem getLast?_cons_map (p0 : Point) (ops : List Cmd) :
    (p0 :: ops.map endPt).getLast? = some (lastPt p0 ops) := by
  induction ops generalizing p0 with
  | nil => rfl
  | cons c cs ih =>
      rw [List.map_cons, List.getLast?_cons_cons]
      exact ih (endPt c)

theorem pyNegGet_one {α : Type} : ∀ (l : List α), l ≠ [] → pyNegGet l 1 = l.getLast? := by
  intro l
  induction l with
  | nil => intro h; cases h rfl
  | cons x t ih =>
      intro _
      cases t with
      | nil => rfl
      | cons y s =>
          rw [List.getLast?_cons_cons, ← ih (by simp)]
          simp [pyNegGet]

theorem pyNegGet_concat {α : Type} (l : List α) (a : α) (k : Nat) (hk : 1 ≤ k) :
    pyNegGet (l ++ [a]) (k + 1) = pyNegGet l k := by
  unfold pyNegGet
  simp only [List.length_append, List.length_singleton]
  by_cases h : k ≤ l.length
  · rw [if_pos (by constructor <;> omega), if_pos ⟨hk, h⟩]
    rw [List.getElem?_append_left (by omega)]
    congr 1
    omega
  · rw [if_neg (by rintro ⟨_, h2⟩; omega),
        if_neg (by rintro ⟨_, h2⟩; exact h h2)]

theorem revLoop_shift {l : List Point} {a : Point} :
    ∀ (xs : List Cmd) (i : Nat), revLoop (l ++ [a]) (i + 1) xs = revLoop l i xs := by
  intro xs
  induction xs with
  | nil => intro i; rfl
  | cons c rest ih =>
      intro i
      rw [revLoop, revLoop]
      have h1 : pyNegGet (l ++ [a]) (i + 1 + 2) = pyNegGet l (i + 2) :=
        pyNegGet_concat l a (i + 2) (by omega)
      rw [h1, ih (i + 1)]

theorem revBody_concat (y : Cmd) :
    ∀ (xs : List Cmd) (p0 : Point),
      revBody p0 (xs ++ [y]) = flipCmd y (lastPt p0 xs) :: revBody p0 xs := by
  intro xs
  induction xs with
  | nil => intro p0; rfl
  | cons c cs ih =>
      intro p0
      rw [List.cons_append, revBody, ih (endPt c), revBody]
      rfl

theorem revLoop_wf (ops : List Cmd) (p0 : Point)
    (h : ∀ c ∈ ops, isLineOrCurve c = true) :
    revLoop (p0 :: ops.map endPt) 0 ops.reverse = some (revBody p0 ops) := by
  induction ops using List.reverseRecOn with
  | nil => rfl
  | append_singleton l a ih =>
      have hmap : (l ++ [a]).map endPt = l.map endPt ++ [endPt a] := by
        rw [List.map_append, List.map_singleton]
      have hcons : p0 :: (l ++ [a]).map endPt = (p0 :: l.map endPt) ++ [endPt a] := by
        rw [hmap]; rfl
      rw [hcons, List.reverse_append, List.reverse_singleton, List.singleton_append,
          revLoop]
      have h2 : pyNegGet ((p0 :: l.map endPt) ++ [endPt a]) (0 + 2) =
          some (lastPt p0 l) := by
        have := pyNegGet_concat (p0 :: l.map endPt) (endPt a) 1 (by omega)
        rw [show (0 : Nat) + 2 = 1 + 1 by rfl, this,
            pyNegGet_one _ (by simp), getLast?_cons_map]
      rw [h2, revLoop_shift, ih (fun c hc => h c (List.mem_append_left _ hc))]
      show some (revEmit a (lastPt p0 l) ++ revBody p0 l) = some (revBody p0 (l ++ [a]))
      rw [revEmit_lc _ (h a (List.mem_append_right _ (List.mem_singleton_self a))),
          revBody_concat]
      rfl

theorem reverse_wf (p0 : Point) (ops : List Cmd) (hne : ops ≠ [])
    (h : ∀ c ∈ ops, isLineOrCurve c = true) :
    reverse_contour_manually (Cmd.moveTo p0 :: ops) =
      some (Cmd.moveTo (lastPt p0 ops) :: revBody p0 ops) := by
  have hlen : ¬ (Cmd.moveTo p0 :: ops).length < 2 := by
    cases ops with
    | nil => cases hne rfl
    | cons _ _ => simp
  have hstrip : stripTrailingClose ops = ops :=
    stripTrailingClose_eq_self (fun c hc => isDrawing_of_lc (h c hc))
  have hempty : ops.isEmpty = false := by
    cases ops with
    | nil => cases hne rfl
    | cons _ _ => rfl
  rw [reverse_contour_manually]
  rw [if_neg hlen]
  show (let operations := stripTrailingClose ops
        if operations.isEmpty then some (Cmd.moveTo p0 :: ops)
        else
          let points := p0 :: operations.filterMap cmdPoint
          do
            let start ← pyNegGet points 1
            let body ← revLoop points 0 operations.reverse
            pure (Cmd.moveTo start :: body)) = _
  rw [hstrip]
  show (if ops.isEmpty then some (Cmd.moveTo p0 :: ops)
        else
          let points := p0 :: ops.filterMap cmdPoint
          do
            let start ← pyNegGet points 1
            let body ← revLoop points 0 ops.reverse
            pure (Cmd.moveTo start :: body)) = _
  rw [hempty]
  show (let points := p0 :: ops.filterMap cmdPoint
        do
          let start ← pyNegGet points 1
          let body ← revLoop points 0 ops.reverse
          pure (Cmd.moveTo start :: body)) = _
  rw [show p0 :: ops.filterMap cmdPoint = p0 :: ops.map endPt by
        rw [filterMap_cmdPoint_eq h]]
  show (do
      let start ← pyNegGet (p0 :: ops.map endPt) 1
      let body ← revLoop (p0 :: ops.map endPt) 0 ops.reverse
      pure (Cmd.moveTo start :: body)) = _
  rw [pyNegGet_one _ (by simp), getLast?_cons_map, revLoop_wf ops p0 h]
  rfl

theorem revBody_lc {ops : List Cmd} (h : ∀ c ∈ ops, isLineOrCurve c = true) :
    ∀ (p0 : Point) (c : Cmd), c ∈ revBody p0 ops → isLineOrCurve c = true := by
  induction ops with
  | nil => intro p0 c hc; cases hc
  | cons x xs ih =>
      intro p0 c hc
      rw [revBody] at hc
      rcases List.mem_append.mp hc with hm | hm
      · exact ih (fun y hy => h y (List.mem_cons_of_mem _ hy)) (endPt x) c hm
      · rw [List.mem_singleton] at hm
        subst hm
        exact lc_flipCmd p0 (h x (List.mem_cons_self _ _))

theorem revBody_length (ops : List Cmd) : ∀ p0, (revBody p0 ops).length = ops.length := by
  induction ops with
  | nil => intro p0; rfl
  | cons x xs ih => intro p0; simp [revBody, ih]

theorem lastPt_append (ys : List Cmd) :
    ∀ (xs : List Cmd) (q : Point), lastPt q (xs ++ ys) = lastPt (lastPt q xs) ys := by
  intro xs
  induction xs with
  | nil => intro q; rfl
  | cons c cs ih => intro q; rw [List.cons_append, lastPt, ih, lastPt]

theorem lastPt_revBody {ops : List Cmd} (hne : ops ≠ [])
    (h : ∀ c ∈ ops, isLineOrCurve c = true) (p0 q : Point) :
    lastPt q (revBody p0 ops) = p0 := by
  cases ops with
  | nil => cases hne rfl
  | cons c cs =>
      rw [revBody, lastPt_append]
      show lastPt (endPt (flipCmd c p0)) [] = p0
      rw [lastPt, endPt_flipCmd p0 (h c (List.mem_cons_self _ _))]

theorem revBody_append (ys : List Cmd) :
    ∀ (xs : List Cmd) (q : Point),
      revBody q (xs ++ ys) = revBody (lastPt q xs) ys ++ revBody q xs := by
  intro xs
  induction xs with
  | nil => intro q; rw [List.nil_append, revBody, List.append_nil]; rfl
  | cons x xs' ih =>
      intro q
      rw [List.cons_append, revBody, ih (endPt x), revBody, lastPt,
          List.append_assoc]

theorem revBody_involution {ops : List Cmd} (h : ∀ c ∈ ops, isLineOrCurve c = true) :
    ∀ p0, revBody (lastPt p0 ops) (revBody p0 ops) = ops := by
  induction ops with
  | nil => intro p0; rfl
  | cons c cs ih =>
      intro p0
      have hc := h c (List.mem_cons_self _ _)
      have hcs : ∀ x ∈ cs, isLineOrCurve x = true :=
        fun x hx => h x (List.mem_cons_of_mem _ hx)
      rw [revBody, lastPt, revBody_append]
      have h1 : lastPt (lastPt (endPt c) cs) (revBody (endPt c) cs) = endPt c := by
        cases cs with
        | nil => rfl
        | cons d ds => exact lastPt_revBody (by simp) hcs (endPt c) _
      rw [h1, ih hcs (endPt c)]
      show (revBody (endPt c) [] ++ [flipCmd (flipCmd c p0) (endPt c)]) ++ cs = c :: cs
      rw [flipCmd_flipCmd p0 hc]
      rfl

/-! ### Claim theorems -/

/-- C7: concatenating, in order, all contours produced by the segmenter
(splitting on `moveTo` boundaries, before any splitting or reversing)
reproduces the original command stream exactly. -/
theorem segmentation_recombination (cs : List Cmd) :
    (segmentContours cs).flatten = cs := by
  simpa using segLoop_flatten cs []

/-- C6: the emitter maps every input point `(x, y)` through the affine
matrix `(1, 0, 0, -1, 0, ascent)`, i.e. to `(x, ascent - y)`; for
`ascent = 750` the point `(200, 300)` transforms to `(200, 450)`. -/
theorem coordinate_flip :
    (∀ a x y : ℚ, transformPoint (flipTransform a) (x, y) = (x, a - y)) ∧
    (∀ (a : ℚ) (s : EmitState) (p : Point),
        (emitStep a s (Cmd.lineTo p)).2 = [OutCmd.lineTo (p.1, a - p.2)]) ∧
    transformPoint (flipTransform 750) (200, 300) = (200, 450) := by
  refine ⟨fun a x y => ?_, fun a s p => ?_, ?_⟩
  · simp [transformPoint, flipTransform]
    ring
  · simp [emitStep, transformPoint, flipTransform]
    ring
  · simp [transformPoint, flipTransform]
    norm_num

/-- C9 counterexample: with `units_per_em = 10` and no metrics tables the
code returns `descent = -3` (Python floor division `-10 // 4`), which is
not the exact value `-10/4 = -2.5` the claim states. -/
theorem metrics_fallback_cex :
    get_vertical_metrics ⟨10, none, none⟩ = (10, 10, -3) ∧
    ((-3 : ℚ) ≠ -10 / 4) := by
  constructor
  · decide
  · norm_num

/-- C9 amended: when both `hhea` and `OS/2` are absent, the fallback is
`ascent = units_per_em` and `descent = (-units_per_em) // 4` with floor
division, i.e. the unique integer `d` with `4*d ≤ -u < 4*d + 4`. -/
theorem metrics_fallback_floor (u : Int) (hu : 0 < u) :
    get_vertical_metrics ⟨u, none, none⟩ = (u, u, Int.fdiv (-u) 4) ∧
    4 * Int.fdiv (-u) 4 ≤ -u ∧ -u < 4 * Int.fdiv (-u) 4 + 4 := by
  refine ⟨by simp [get_vertical_metrics], ?_, ?_⟩ <;>
  · rw [Int.fdiv_eq_ediv _ (by norm_num)]
    omega

theorem metrics_fallback_floor_witness :
    (0 : Int) < 10 ∧ get_vertical_metrics ⟨10, none, none⟩ = (10, 10, Int.fdiv (-10) 4) := by
  exact ⟨by decide, (metrics_fallback_floor 10 (by decide)).1⟩

/-- C3 counterexample: for the contour
`[moveTo (0,0), qCurveTo (some (10,10), None)]` the reverser records the
control point `(10,10)` (the last non-absent operand) as the terminal
point, so the reversed contour's `moveTo` is at `(10,10)`, not at the
contour start `(0,0)` as the claim states. -/
theorem qcurve_implicit_moveto_cex :
    reverse_contour_manually [Cmd.moveTo (0, 0), Cmd.qCurveTo [some (10, 10), none]] =
      some [Cmd.moveTo (10, 10), Cmd.qCurveTo [some (10, 10), some (0, 0)]] ∧
    ((10, 10) : Point) ≠ ((0, 0) : Point) := by
  constructor
  · decide
  · decide

/-- C3 amended: for a contour ending in a `qCurveTo` whose trailing operand
is absent, the reverser records the last non-absent operand (a control
point) as the terminal point — the absent marker is not resolved to the
contour start — so the reversed contour's new `moveTo` is at that last
non-absent operand. -/
theorem qcurve_implicit_reverse (p0 cp : Point) (pre : List (Option Point)) :
    reverse_contour_manually [Cmd.moveTo p0, Cmd.qCurveTo (pre ++ [some cp, none])] =
      some [Cmd.moveTo cp,
            Cmd.qCurveTo (some cp :: ((pre.filterMap id).reverse.map some ++ [some p0]))] := by
  have hfm : (pre ++ [some cp, none]).filterMap id = pre.filterMap id ++ [cp] := by
    simp [List.filterMap_append]
  simp [reverse_contour_manually, stripTrailingClose, Cmd.isCloseOrEnd, cmdPoint, hfm,
        revLoop, revEmit, pyNegGet, List.getLast?_concat]

/-- C10 counterexample: a contour containing a drawing command of an
unrecognized kind is not reversed with that command silently omitted — the
reverser raises an `IndexError` (modelled as `none`), because the command
contributes no point to the reconstructed point sequence while the loop
still consumes an index for it. -/
theorem unrecognized_cmd_cex :
    reverse_contour_manually [Cmd.moveTo (0, 0), Cmd.other "arcTo" [some (5, 5)]] = none := by
  decide

/-- C10 amended: if a contour beginning with `moveTo` has at least one
drawing command and one of them contributes no on-curve point (any
unrecognized kind, or a `qCurveTo` with no non-absent operand), the
reverser fails with an `IndexError` (`none`); whenever it does return a
result, every command of the result is of kind `moveTo`, `lineTo`,
`curveTo` or `qCurveTo`. -/
theorem unrecognized_cmd_fails :
    (∀ (p0 : Point) (ops : List Cmd),
        (∀ c ∈ ops, c.isDrawing = true) → (∃ c ∈ ops, cmdPoint c = none) →
        reverse_contour_manually (Cmd.moveTo p0 :: ops) = none) ∧
    (∀ (p0 : Point) (rest r : List Cmd),
        stripTrailingClose rest ≠ [] →
        reverse_contour_manually (Cmd.moveTo p0 :: rest) = some r →
        ∀ c ∈ r, isRecognizedKind c = true) := by
  constructor
  · intro p0 ops hdraw ⟨c, hc, hcp⟩
    have hne : ops ≠ [] := by intro h; subst h; cases hc
    have hlen : ¬ (Cmd.moveTo p0 :: ops).length < 2 := by
      cases ops with
      | nil => cases hne rfl
      | cons _ _ => simp
    have hstrip : stripTrailingClose ops = ops := stripTrailingClose_eq_self hdraw
    have hempty : ops.isEmpty = false := by
      cases ops with
      | nil => cases hne rfl
      | cons _ _ => rfl
    have hnone : revLoop (p0 :: ops.filterMap cmdPoint) 0 ops.reverse = none := by
      apply revLoop_none _ _ _ (by simpa using hne)
      have := length_filterMap_lt_of_mem_none cmdPoint hc hcp
      simp
      omega
    simp [reverse_contour_manually, hlen, hstrip, hempty, hnone]
    exact List.length_pos.mpr hne
  · intro p0 rest r hstrip hrev c hcr
    by_cases hlen : (Cmd.moveTo p0 :: rest).length < 2
    · have : rest = [] := by
        cases rest with
        | nil => rfl
        | cons _ _ => simp at hlen; omega
      subst this
      simp [stripTrailingClose] at hstrip
    · rw [reverse_contour_manually] at hrev
      simp only [hlen, if_false] at hrev
      have hempty : (stripTrailingClose rest).isEmpty = false := by
        cases h : stripTrailingClose rest with
        | nil => cases hstrip h
        | cons _ _ => rfl
      simp only [hempty, Bool.false_eq_true, if_false] at hrev
      simp only [Option.bind_eq_bind, bind, Option.bind] at hrev
      cases hp : pyNegGet (p0 :: (stripTrailingClose rest).filterMap cmdPoint) 1 with
      | none => rw [hp] at hrev; cases hrev
      | some start =>
          rw [hp] at hrev
          cases hb : revLoop (p0 :: (stripTrailingClose rest).filterMap cmdPoint) 0
              (stripTrailingClose rest).reverse with
          | none => rw [hb] at hrev; cases hrev
          | some body =>
              rw [hb] at hrev
              simp only [pure, Option.some.injEq] at hrev
              subst hrev
              rcases List.mem_cons.mp hcr with h | h
              · subst h; rfl
              · exact revLoop_kinds _ _ _ _ hb c h

theorem unrecognized_cmd_fails_witness :
    reverse_contour_manually
        [Cmd.moveTo (0, 0), Cmd.lineTo (2, 2), Cmd.other "arcTo" []] = none ∧
    isRecognizedKind (Cmd.moveTo ((1 : ℚ), (1 : ℚ))) = true ∧
    isRecognizedKind (Cmd.lineTo ((0 : ℚ), (0 : ℚ))) = true := by
  refine ⟨?_, ?_, ?_⟩
  · exact unrecognized_cmd_fails.1 (0, 0) [Cmd.lineTo (2, 2), Cmd.other "arcTo" []]
      (by decide) ⟨Cmd.other "arcTo" [], by decide, by decide⟩
  · exact unrecognized_cmd_fails.2 (0, 0) [Cmd.lineTo (1, 1)]
      [Cmd.moveTo (1, 1), Cmd.lineTo (0, 0)] (by decide) (by decide)
      (Cmd.moveTo (1, 1)) (by decide)
  · exact unrecognized_cmd_fails.2 (0, 0) [Cmd.lineTo (1, 1)]
      [Cmd.moveTo (1, 1), Cmd.lineTo (0, 0)] (by decide) (by decide)
      (Cmd.lineTo (0, 0)) (by decide)

/-- C8: a degenerate contour — a `moveTo` with no drawing commands,
optionally followed by one `closePath` or `endPath` — is returned
unchanged, trailing close/end command included, by both the midpoint
splitter and the contour reverser. -/
theorem degenerate_contour_preserved (p : Point) (tail : List Cmd)
    (htail : tail = [] ∨ tail = [Cmd.closePath] ∨ tail = [Cmd.endPath]) :
    split_contour_at_midpoint (Cmd.moveTo p :: tail) = Cmd.moveTo p :: tail ∧
    reverse_contour_manually (Cmd.moveTo p :: tail) = some (Cmd.moveTo p :: tail) := by
  rcases htail with h | h | h <;> subst h <;>
    exact ⟨by simp [split_contour_at_midpoint],
           by simp [reverse_contour_manually, stripTrailingClose, Cmd.isCloseOrEnd]⟩

/-- C2: for a contour `moveTo` + drawing commands + optional trailing
close/end, the splitter returns it unchanged when it has fewer than 3
commands; otherwise the result is exactly the leading `moveTo` followed by
the first `floor(n/2)` drawing commands in their original order, with the
trailing close/end command dropped. -/
theorem splitter_midpoint_spec (p : Point) (ds tail : List Cmd)
    (hds : ∀ c ∈ ds, c.isDrawing = true)
    (htail : tail = [] ∨ tail = [Cmd.closePath] ∨ tail = [Cmd.endPath]) :
    ((Cmd.moveTo p :: (ds ++ tail)).length < 3 →
        split_contour_at_midpoint (Cmd.moveTo p :: (ds ++ tail)) =
          Cmd.moveTo p :: (ds ++ tail)) ∧
    (3 ≤ (Cmd.moveTo p :: (ds ++ tail)).length →
        split_contour_at_midpoint (Cmd.moveTo p :: (ds ++ tail)) =
          Cmd.moveTo p :: ds.take (ds.length / 2)) := by
  constructor
  · intro h
    unfold split_contour_at_midpoint
    rw [if_pos h]
  · intro h
    have htail_len : tail.length ≤ 1 := by
      rcases htail with h' | h' | h' <;> simp [h']
    have htail_drawing : tail.filter Cmd.isDrawing = [] := by
      rcases htail with h' | h' | h' <;> simp [h', Cmd.isDrawing, Cmd.isMoveTo, Cmd.isCloseOrEnd]
    have htail_moveTo : tail.filter Cmd.isMoveTo = [] := by
      rcases htail with h' | h' | h' <;> simp [h', Cmd.isMoveTo]
    have hfil : (Cmd.moveTo p :: (ds ++ tail)).filter Cmd.isDrawing = ds := by
      simp [List.filter_append, htail_drawing, Cmd.isDrawing, Cmd.isMoveTo,
            List.filter_eq_self.mpr hds]
    have hfilm : (Cmd.moveTo p :: (ds ++ tail)).filter Cmd.isMoveTo = [Cmd.moveTo p] := by
      have : ds.filter Cmd.isMoveTo = [] := by
        apply List.filter_eq_nil_iff.mpr
        intro c hc
        simp [isMoveTo_false_of_isDrawing (hds c hc)]
      simp [List.filter_append, this, htail_moveTo, Cmd.isMoveTo]
    have hne : ds.isEmpty = false := by
      simp at h
      cases hds' : ds with
      | nil => subst hds'; simp at h; omega
      | cons _ _ => rfl
    rw [split_contour_at_midpoint]
    rw [if_neg (by omega)]
    simp only [hfil, hfilm, hne, List.getLast?_singleton]
    simp

theorem splitter_midpoint_spec_witness :
    split_contour_at_midpoint
        [Cmd.moveTo (0, 0), Cmd.lineTo (1, 1), Cmd.lineTo (2, 2), Cmd.lineTo (3, 3),
         Cmd.closePath] =
      [Cmd.moveTo ((0 : ℚ), (0 : ℚ)), Cmd.lineTo (1, 1)] := by
  have h := (splitter_midpoint_spec (0, 0)
      [Cmd.lineTo (1, 1), Cmd.lineTo (2, 2), Cmd.lineTo (3, 3)] [Cmd.closePath]
      (by decide) (Or.inr (Or.inl rfl))).2 (by decide)
  simpa using h

/-- C1 counterexample: the full pipeline on the synthetic outline
`[moveTo (0,0), lineTo (50,0), lineTo (100,50), lineTo (50,0),
lineTo (0,0), closePath]` with `ascent = 500` yields the three-point path
`M (100,450) L (50,500) L (0,500)`, not the two-point path from `(0,500)`
to `(50,500)` that the claim states. -/
theorem end_to_end_two_point_cex :
    glyph_to_svg_commands
        [Cmd.moveTo (0, 0), Cmd.lineTo (50, 0), Cmd.lineTo (100, 50),
         Cmd.lineTo (50, 0), Cmd.lineTo (0, 0), Cmd.closePath] 500 =
      some [OutCmd.moveTo (100, 450), OutCmd.lineTo (50, 500), OutCmd.lineTo (0, 500)] ∧
    some [OutCmd.moveTo ((100 : ℚ), (450 : ℚ)), OutCmd.lineTo (50, 500), OutCmd.lineTo (0, 500)] ≠
      some [OutCmd.moveTo ((0 : ℚ), (500 : ℚ)), OutCmd.lineTo (50, 500)] := by
  constructor
  · have h1 : processContours (segmentContours
        [Cmd.moveTo (0, 0), Cmd.lineTo (50, 0), Cmd.lineTo (100, 50),
         Cmd.lineTo (50, 0), Cmd.lineTo (0, 0), Cmd.closePath]) =
        some [[Cmd.moveTo (100, 50), Cmd.lineTo (50, 0), Cmd.lineTo (0, 0)]] := by
      decide
    rw [glyph_to_svg_commands, h1]
    simp [emitRun, emitStep, transformPoint, flipTransform, get_last_point, updateLast]
    norm_num
  · decide

/-- C1 amended: the full pipeline (segment, midpoint-split keeping 2 of the
4 drawing commands, reverse, emit with `ascent = 500`) yields the
three-point open path from `(100,450)` through `(50,500)` to `(0,500)`
(reversed and flipped forward half), with no close command in the
output. -/
theorem end_to_end_pipeline :
    glyph_to_svg_commands
        [Cmd.moveTo (0, 0), Cmd.lineTo (50, 0), Cmd.lineTo (100, 50),
         Cmd.lineTo (50, 0), Cmd.lineTo (0, 0), Cmd.closePath] 500 =
      some [OutCmd.moveTo (100, 450), OutCmd.lineTo (50, 500), OutCmd.lineTo (0, 500)] ∧
    OutCmd.closePath ∉
      [OutCmd.moveTo ((100 : ℚ), (450 : ℚ)), OutCmd.lineTo (50, 500), OutCmd.lineTo (0, 500)] := by
  constructor
  · have h1 : processContours (segmentContours
        [Cmd.moveTo (0, 0), Cmd.lineTo (50, 0), Cmd.lineTo (100, 50),
         Cmd.lineTo (50, 0), Cmd.lineTo (0, 0), Cmd.closePath]) =
        some [[Cmd.moveTo (100, 50), Cmd.lineTo (50, 0), Cmd.lineTo (0, 0)]] := by
      decide
    rw [glyph_to_svg_commands, h1]
    simp [emitRun, emitStep, transformPoint, flipTransform, get_last_point, updateLast]
    norm_num
  · decide

/-- C4: replaying a contour `moveTo p`, then drawing commands `mid`, then
`closePath`, the emitter forwards the `closePath` to the serializer if and
only if the tracked current point is within tolerance `0.5` (pre-transform)
of the contour's `moveTo` point, or the last command of `mid` is a
`qCurveTo` whose final operand is absent; otherwise the `closePath` is
dropped and no close appears in the output. -/
theorem close_path_suppression (a : ℚ) (p : Point) (mid : List Cmd)
    (h : ∀ c ∈ mid, isRecognizedDrawing c = true) :
    OutCmd.closePath ∈
        emitRun a ⟨none, none, false⟩ (Cmd.moveTo p :: (mid ++ [Cmd.closePath])) ↔
      ((∃ lp, (emitState a ⟨none, none, false⟩ (Cmd.moveTo p :: mid)).last_point = some lp ∧
          points_close lp p = true) ∨
       (∃ c, mid.getLast? = some c ∧ qCurveTrailingAbsent c = true)) := by
  have hstate : emitState a ⟨none, none, false⟩ (Cmd.moveTo p :: mid) =
      emitState a ⟨some p, some p, false⟩ mid := rfl
  set s1 : EmitState := ⟨some p, some p, false⟩ with hs1
  set smid : EmitState := emitState a s1 mid with hsmid
  have hcs : smid.contour_start = some p := by
    rw [hsmid, emitState_contour_start a mid h s1]
  have hlp : smid.last_point.isSome = true := by
    rw [hsmid]
    exact emitState_last_point a mid h s1 rfl
  obtain ⟨lp, hlpv⟩ := Option.isSome_iff_exists.mp hlp
  have hrun : emitRun a ⟨none, none, false⟩ (Cmd.moveTo p :: (mid ++ [Cmd.closePath])) =
      [OutCmd.moveTo (transformPoint (flipTransform a) p)] ++
        (emitRun a s1 mid ++ emitRun a smid [Cmd.closePath]) := by
    rw [emitRun, emitRun_append]
    rfl
  have hclose : emitRun a smid [Cmd.closePath] =
      (if points_close lp p || smid.qcurve_closed then [OutCmd.closePath] else []) := by
    rw [emitRun, emitRun]
    show (emitStep a smid Cmd.closePath).2 ++ [] = _
    rw [List.append_nil]
    show (match smid.contour_start, smid.last_point with
          | some cs, some lp => if points_close lp cs || smid.qcurve_closed
              then [OutCmd.closePath] else []
          | _, _ => ([] : List OutCmd)) = _
    rw [hcs, hlpv]
  rw [hrun, hstate]
  constructor
  · intro hmem
    rcases List.mem_append.mp hmem with hm | hm
    · simp at hm
    rcases List.mem_append.mp hm with hm' | hm'
    · exact absurd hm' (emitRun_no_close a mid h s1)
    rw [hclose] at hm'
    by_cases hcond : (points_close lp p || smid.qcurve_closed) = true
    · rcases Bool.or_eq_true_iff.mp hcond with hpc | hflag
      · exact Or.inl ⟨lp, hlpv, hpc⟩
      · right
        cases hmidlast : mid.getLast? with
        | none =>
            have : mid = [] := by
              cases mid with
              | nil => rfl
              | cons x xs => simp [List.getLast?_eq_none_iff] at hmidlast
            subst this
            simp [hsmid, emitState] at hflag
        | some c =>
            refine ⟨c, rfl, ?_⟩
            have hmne : mid ≠ [] := by
              intro hmid0; subst hmid0; cases hmidlast
            rw [hsmid] at hflag
            rw [emitState_qcurve_closed a mid c s1 h rfl hmidlast] at hflag
            exact hflag
    · simp at hcond
      rw [hcond.1, hcond.2] at hm'
      simp at hm'
  · intro hdisj
    apply List.mem_append.mpr
    right
    apply List.mem_append.mpr
    right
    rw [hclose]
    rcases hdisj with ⟨lp', hlp', hpc⟩ | ⟨c, hc, hflag⟩
    · rw [hlpv] at hlp'
      cases hlp'
      simp [hpc]
    · rw [hsmid, emitState_qcurve_closed a mid c s1 h rfl hc, hflag]
      simp

theorem close_path_suppression_witness :
    OutCmd.closePath ∉ emitRun 0 ⟨none, none, false⟩
        [Cmd.moveTo (0, 0), Cmd.lineTo (100, 100), Cmd.closePath] ∧
    OutCmd.closePath ∈ emitRun 0 ⟨none, none, false⟩
        [Cmd.moveTo (0, 0), Cmd.lineTo ((1 : ℚ)/4, (1 : ℚ)/4), Cmd.closePath] := by
  constructor
  · intro hmem
    have h := (close_path_suppression 0 (0, 0) [Cmd.lineTo (100, 100)] (by decide)).mp hmem
    rcases h with ⟨lp, hlp, hpc⟩ | ⟨c, hc, hq⟩
    · have : lp = ((100 : ℚ), (100 : ℚ)) := by
        have : (emitState 0 ⟨none, none, false⟩
            [Cmd.moveTo (0, 0), Cmd.lineTo (100, 100)]).last_point =
            some ((100 : ℚ), (100 : ℚ)) := rfl
        rw [this] at hlp
        exact (Option.some.injEq _ _ ▸ hlp).symm
      subst this
      simp [points_close] at hpc
      norm_num at hpc
    · have hcv : Cmd.lineTo ((100 : ℚ), (100 : ℚ)) = c := by simpa using hc
      subst hcv
      simp [qCurveTrailingAbsent] at hq
  · apply (close_path_suppression 0 (0, 0) [Cmd.lineTo ((1 : ℚ)/4, (1 : ℚ)/4)] (by decide)).mpr
    left
    refine ⟨((1 : ℚ)/4, (1 : ℚ)/4), rfl, ?_⟩
    simp only [points_close, Bool.and_eq_true, decide_eq_true_eq]
    constructor <;> norm_num [abs_le]

/-- C5: for a contour `moveTo p0` followed by a non-empty list of
`lineTo`/`curveTo` drawing commands (no trailing close), reversing twice
restores the original contour exactly — the on-curve point sequence and
the cubic control points (swapped on each reversal) are all recovered. -/
theorem reversal_involution (p0 : Point) (ops : List Cmd)
    (hne : ops ≠ []) (h : ∀ c ∈ ops, isLineOrCurve c = true) :
    ∃ r, reverse_contour_manually (Cmd.moveTo p0 :: ops) = some r ∧
      reverse_contour_manually r = some (Cmd.moveTo p0 :: ops) := by
  refine ⟨Cmd.moveTo (lastPt p0 ops) :: revBody p0 ops, reverse_wf p0 ops hne h, ?_⟩
  have hbne : revBody p0 ops ≠ [] := by
    intro h0
    have := revBody_length ops p0
    rw [h0] at this
    cases ops with
    | nil => exact hne rfl
    | cons _ _ => simp at this
  rw [reverse_wf (lastPt p0 ops) (revBody p0 ops) hbne (revBody_lc h p0),
      lastPt_revBody hne h p0 (lastPt p0 ops), revBody_involution h p0]

theorem reversal_involution_witness :
    reverse_contour_manually
        [Cmd.moveTo ((0 : ℚ), (0 : ℚ)), Cmd.curveTo (10, 20) (30, 20) (40, 0)] =
      some [Cmd.moveTo ((40 : ℚ), (0 : ℚ)), Cmd.curveTo (30, 20) (10, 20) (0, 0)] ∧
    reverse_contour_manually
        [Cmd.moveTo ((40 : ℚ), (0 : ℚ)), Cmd.curveTo (30, 20) (10, 20) (0, 0)] =
      some [Cmd.moveTo ((0 : ℚ), (0 : ℚ)), Cmd.curveTo (10, 20) (30, 20) (40, 0)] := by
  obtain ⟨r, h1, h2⟩ := reversal_involution (0, 0)
    [Cmd.curveTo (10, 20) (30, 20) (40, 0)] (by decide) (by decide)
  have hev : reverse_contour_manually
      [Cmd.moveTo ((0 : ℚ), (0 : ℚ)), Cmd.curveTo (10, 20) (30, 20) (40, 0)] =
      some [Cmd.moveTo ((40 : ℚ), (0 : ℚ)), Cmd.curveTo (30, 20) (10, 20) (0, 0)] := by
    decide
  rw [hev] at h1
  obtain rfl := Option.some.inj h1
  exact ⟨hev, h2⟩

theorem degenerate_contour_preserved_witness :
    split_contour_at_midpoint [Cmd.moveTo ((7 : ℚ), (8 : ℚ)), Cmd.closePath] =
      [Cmd.moveTo ((7 : ℚ), (8 : ℚ)), Cmd.closePath] ∧
    reverse_contour_manually [Cmd.moveTo ((7 : ℚ), (8 : ℚ)), Cmd.closePath] =
      some [Cmd.moveTo ((7 : ℚ), (8 : ℚ)), Cmd.closePath] :=
  degenerate_contour_preserved (7, 8) [Cmd.closePath] (Or.inr (Or.inl rfl))

end ExportSvgGlyphs
